import Mathlib

/-!
Shallow embedding of the MPSC intrusive-list queue from
src/src/sync/mpsc_list.rs.

The heap of nodes is modelled as a partial function from addresses (Nat)
to nodes; `Box::into_raw` allocation hands out fresh addresses from a
counter, and `Box::from_raw` deallocation removes the address from the
heap.  A null pointer is `Option.none` on the `next` field.  The two
atomic steps of `push` (the head swap and the forward-link store) are
modelled as separate functions so that the "inconsistent" mid-push window
is a first-class state.  `raw_pop` returns `Option` so that the abnormal
terminations of the Rust code (the two asserts, the `unwrap`, and a
dereference of an unallocated pointer) are `none`; a normal result is
`some` of the source's three-way `PopResult` together with the new state.
The retry loop of `pop` is parameterised by a schedule: a list of state
transformers, one applied at each `yield_now()` point, standing for the
actions of concurrent producers between consecutive `raw_pop` attempts.
-/

namespace MpscList

/-- One queue slot: a forward link (`None` for null) and an optional payload,
mirroring `struct Node<T>` in the source. -/
structure Node (T : Type) where
  next : Option Nat
  value : Option T
  deriving Repr, DecidableEq

/-- The heap of allocated nodes, addressed by `Nat`. -/
def Heap (T : Type) := Nat → Option (Node T)

/-- Heap lookup (pointer dereference). -/
def hlookup {T : Type} (h : Heap T) (a : Nat) : Option (Node T) := h a

/-- Heap update: write the node stored at an (allocated) address. -/
def hinsert {T : Type} (h : Heap T) (a : Nat) (n : Node T) : Heap T :=
  fun b => if b = a then some n else h b

/-- Heap deallocation, modelling `Box::from_raw` followed by drop. -/
def hremove {T : Type} (h : Heap T) (a : Nat) : Heap T :=
  fun b => if b = a then none else h b

/-- The heap with no allocated node. -/
def emptyHeap {T : Type} : Heap T := fun _ => none

/-- The queue state, mirroring `struct Queue<T>`: the producers' head
pointer, the consumer's tail pointer, the node heap, and the allocator
counter (fresh addresses for `Node::new`). -/
structure Queue (T : Type) where
  heap : Heap T
  head : Nat
  tail : Nat
  nextAlloc : Nat

/-- The three-way result of one `raw_pop` attempt, mirroring `enum PopResult`. -/
inductive PopResult (T : Type) where
  | Data : T → PopResult T
  | Empty : PopResult T
  | Inconsistent : PopResult T
  deriving Repr, DecidableEq

/-- `Queue::new()`: allocate a stub node with no payload and a null link,
and point both `head` and `tail` at it. -/
def newQueue (T : Type) : Queue T :=
  { heap := hinsert emptyHeap 0 ⟨none, none⟩
    head := 0
    tail := 0
    nextAlloc := 1 }

/-- The first half of `Queue::push`: allocate the new node holding the
value and atomically swap `head` to it.  Returns the new state together
with the previous head (the swap's return value) and the new node's
address.  Between this step and `storeNext` the queue is in the transient
mid-push window. -/
def pushSwap {T : Type} (q : Queue T) (t : T) : Queue T × Nat × Nat :=
  let node := q.nextAlloc
  ({ heap := hinsert q.heap node ⟨none, some t⟩
     head := node
     tail := q.tail
     nextAlloc := q.nextAlloc + 1 }, q.head, node)

/-- The second half of `Queue::push`: `(*prev).next.store(node, Release)`.
A store through an unallocated pointer leaves the heap unchanged here; it
is undefined behaviour in the source and never happens in reachable
states. -/
def storeNext {T : Type} (h : Heap T) (prev node : Nat) : Heap T :=
  match hlookup h prev with
  | some nd => hinsert h prev ⟨some node, nd.value⟩
  | none => h

/-- `Queue::push`, with both steps completed atomically (the sequential
view of a push that runs to completion with no interference). -/
def push {T : Type} (q : Queue T) (t : T) : Queue T :=
  let (q1, prev, node) := pushSwap q t
  { q1 with heap := storeNext q1.heap prev node }

/-- `Queue::is_empty`: compare the head pointer with the consumer's tail
pointer. -/
def isEmpty {T : Type} (q : Queue T) : Bool := q.head == q.tail

/-- `Queue::raw_pop`.  Returns `none` on abnormal termination: a
dereference of an unallocated address (undefined behaviour in the
source), a failure of either `assert!`, or `take().unwrap()` on an empty
payload — all of which abort the operation rather than produce a
`PopResult`.  Otherwise returns the `PopResult` and the new state: in the
`Data` case the tail is advanced, the payload is taken out of the new
tail node, and the old tail node is freed. -/
def rawPop {T : Type} (q : Queue T) : Option (PopResult T × Queue T) :=
  match hlookup q.heap q.tail with
  | none => none
  | some tn =>
    match tn.next with
    | some nxt =>
      match hlookup q.heap nxt with
      | none => none
      | some nn =>
        if tn.value.isNone then
          match nn.value with
          | some v =>
            some (PopResult.Data v,
              { q with heap := hremove (hinsert q.heap nxt ⟨nn.next, none⟩) q.tail
                       tail := nxt })
          | none => none
        else none
    | none =>
      if q.head = q.tail then some (PopResult.Empty, q)
      else some (PopResult.Inconsistent, q)

/-- The possible outcomes of one call to `Queue::pop` under a finite
schedule of environment actions. -/
inductive PopOutcome (T : Type) where
  | ret : Option T → Queue T → PopOutcome T
  | panicEmpty : PopOutcome T
  | abort : PopOutcome T
  | spinning : Queue T → PopOutcome T

/-- The retry loop inside `Queue::pop`, entered after an `Inconsistent`
attempt.  Each iteration first yields (`yield_now()`), during which the
environment transformer at the head of the schedule acts on the state,
then re-attempts `raw_pop`.  `Data` returns the value, `Empty` is the
source's `panic!` on a broken invariant, `Inconsistent` loops.  If the
schedule is exhausted while still looping the outcome is `spinning`. -/
def popLoop {T : Type} : List (Queue T → Queue T) → Queue T → PopOutcome T
  | [], q => PopOutcome.spinning q
  | f :: env, q =>
    let q1 := f q
    match rawPop q1 with
    | none => PopOutcome.abort
    | some (PopResult.Data v, q2) => PopOutcome.ret (some v) q2
    | some (PopResult.Empty, _) => PopOutcome.panicEmpty
    | some (PopResult.Inconsistent, q2) => popLoop env q2

/-- `Queue::pop` under a schedule of environment actions at the yield
points: one `raw_pop` attempt, then on `Inconsistent` the retry loop. -/
def popC {T : Type} (env : List (Queue T → Queue T)) (q : Queue T) : PopOutcome T :=
  match rawPop q with
  | none => PopOutcome.abort
  | some (PopResult.Data v, q2) => PopOutcome.ret (some v) q2
  | some (PopResult.Empty, q2) => PopOutcome.ret none q2
  | some (PopResult.Inconsistent, q2) => popLoop env q2

/-- Sequential `Queue::pop`: no concurrent producers act, so the schedule
is empty. -/
def pop {T : Type} (q : Queue T) : PopOutcome T := popC [] q

/-- Push a whole list of values sequentially (one producer, each push
completing before the next). -/
def pushAll {T : Type} (q : Queue T) (xs : List T) : Queue T :=
  xs.foldl push q

/-- Perform `n` sequential pops, collecting the returned values; `none`
if any pop fails to return `some` value normally. -/
def popList {T : Type} : Nat → Queue T → Option (List T × Queue T)
  | 0, q => some ([], q)
  | n + 1, q =>
    match pop q with
    | PopOutcome.ret (some v) q2 =>
      match popList n q2 with
      | some (l, qf) => some (v :: l, qf)
      | none => none
    | _ => none

/-- `impl Drop for Queue`: pop repeatedly, discarding payloads, until a
pop reports empty.  Fuelled; `none` when the fuel runs out or a pop ends
abnormally. -/
def dropDrain {T : Type} : Nat → Queue T → Option (Queue T)
  | 0, _ => none
  | fuel + 1, q =>
    match pop q with
    | PopOutcome.ret (some _) q2 => dropDrain fuel q2
    | PopOutcome.ret none q2 => some q2
    | _ => none

/-- The address of the last node of a chain that starts right after `a`
and runs through the addresses of `items`; `a` itself if `items` is
empty.  In a well-formed state this is where `head` points. -/
def lastAddr {T : Type} (a : Nat) : List (Nat × T) → Nat
  | [] => a
  | (b, _) :: rest => lastAddr b rest

/-- The linked-list chain predicate: starting from the node at `a`, the
forward links run exactly through the addresses of `items` in order, each
linked node carrying its item's payload, and the last node has a null
link. -/
def chainFrom {T : Type} (h : Heap T) : Nat → List (Nat × T) → Prop
  | a, [] => ∃ nd, hlookup h a = some nd ∧ nd.next = none
  | a, (b, v) :: rest =>
    ∃ nd nb, hlookup h a = some nd ∧ nd.next = some b ∧
      hlookup h b = some nb ∧ nb.value = some v ∧ chainFrom h b rest

/-- Well-formedness of a sequential queue state: `items` lists the
unconsumed nodes (address, payload) in FIFO order.  The tail node is the
payload-free sentinel, the chain from it runs through `items` and ends at
`head`, the heap contains exactly the chain's nodes, addresses are
distinct, and all are below the allocation counter. -/
structure WF {T : Type} (q : Queue T) (items : List (Nat × T)) : Prop where
  tailVal : ∃ tn, hlookup q.heap q.tail = some tn ∧ tn.value = none
  chain : chainFrom q.heap q.tail items
  headEq : q.head = lastAddr q.tail items
  dom : ∀ a, (hlookup q.heap a).isSome ↔ a ∈ q.tail :: items.map Prod.fst
  nodup : (q.tail :: items.map Prod.fst).Nodup
  bound : ∀ a ∈ q.tail :: items.map Prod.fst, a < q.nextAlloc

theorem hlookup_hinsert_self {T : Type} (h : Heap T) (a : Nat) (n : Node T) :
    hlookup (hinsert h a n) a = some n := by
  simp [hlookup, hinsert]

theorem hlookup_hinsert_ne {T : Type} (h : Heap T) (a b : Nat) (n : Node T)
    (hb : b ≠ a) : hlookup (hinsert h a n) b = hlookup h b := by
  simp [hlookup, hinsert, hb]

theorem hlookup_hremove_self {T : Type} (h : Heap T) (a : Nat) :
    hlookup (hremove h a) a = none := by
  simp [hlookup, hremove]

theorem hlookup_hremove_ne {T : Type} (h : Heap T) (a b : Nat)
    (hb : b ≠ a) : hlookup (hremove h a) b = hlookup h b := by
  simp [hlookup, hremove, hb]

theorem lastAddr_mem {T : Type} (a : Nat) (items : List (Nat × T)) :
    lastAddr a items ∈ a :: items.map Prod.fst := by
  induction items generalizing a with
  | nil => simp [lastAddr]
  | cons p rest ih =>
    obtain ⟨b, v⟩ := p
    have := ih b
    simp only [lastAddr, List.map_cons, List.mem_cons] at this ⊢
    tauto

theorem lastAddr_append_single {T : Type} (a c : Nat) (v : T)
    (items : List (Nat × T)) :
    lastAddr a (items ++ [(c, v)]) = c := by
  induction items generalizing a with
  | nil => simp [lastAddr]
  | cons p rest ih =>
    obtain ⟨b, w⟩ := p
    simpa [lastAddr] using ih b

theorem chain_last {T : Type} (h : Heap T) (items : List (Nat × T)) (a : Nat)
    (hc : chainFrom h a items) :
    ∃ nd, hlookup h (lastAddr a items) = some nd ∧ nd.next = none := by
  induction items generalizing a with
  | nil => simpa [lastAddr, chainFrom] using hc
  | cons p rest ih =>
    obtain ⟨b, v⟩ := p
    obtain ⟨nd, nb, _, _, _, _, hrest⟩ := hc
    simpa [lastAddr] using ih b hrest

theorem chain_values {T : Type} (h : Heap T) (items : List (Nat × T)) (a : Nat)
    (hc : chainFrom h a items) :
    ∀ p ∈ items, ∃ nd, hlookup h p.1 = some nd ∧ nd.value = some p.2 := by
  induction items generalizing a with
  | nil => simp
  | cons p rest ih =>
    obtain ⟨b, v⟩ := p
    obtain ⟨nd, nb, _, _, hb, hv, hrest⟩ := hc
    intro p hp
    rcases List.mem_cons.mp hp with h1 | h2
    · subst h1; exact ⟨nb, hb, hv⟩
    · exact ih b hrest p h2

theorem chainFrom_congr {T : Type} (h h2 : Heap T) (items : List (Nat × T))
    (a : Nat) (hc : chainFrom h a items)
    (hrest : ∀ b ∈ items.map Prod.fst, hlookup h2 b = hlookup h b)
    (hhead : ∃ nd nd2, hlookup h a = some nd ∧ hlookup h2 a = some nd2 ∧
      nd2.next = nd.next) :
    chainFrom h2 a items := by
  induction items generalizing a with
  | nil =>
    obtain ⟨nd, hnd, hnone⟩ := hc
    obtain ⟨nd1, nd2, hnd1, hnd2, hnx⟩ := hhead
    rw [hnd] at hnd1
    cases hnd1
    exact ⟨nd2, hnd2, by rw [hnx, hnone]⟩
  | cons p rest ih =>
    obtain ⟨b, v⟩ := p
    obtain ⟨nd, nb, hnd, hnx, hb, hv, hrest2⟩ := hc
    obtain ⟨nd1, nd2, hnd1, hnd2, hnx2⟩ := hhead
    rw [hnd] at hnd1
    cases hnd1
    have hb2 : hlookup h2 b = some nb := by
      rw [hrest b (by simp), hb]
    refine ⟨nd2, nb, hnd2, by rw [hnx2, hnx], hb2, hv, ?_⟩
    exact ih b hrest2
      (fun c hc2 => hrest c (by simp [hc2]))
      ⟨nb, nb, hb, hb2, rfl⟩

theorem wf_new (T : Type) : WF (newQueue T) [] := by
  refine ⟨⟨⟨none, none⟩, ?_, rfl⟩, ⟨⟨none, none⟩, ?_, rfl⟩, rfl, ?_, ?_, ?_⟩
  · simp [newQueue, hlookup, hinsert]
  · simp [newQueue, hlookup, hinsert]
  · intro a
    by_cases ha : a = 0 <;>
      simp [newQueue, hlookup, hinsert, emptyHeap, ha]
  · simp
  · intro a ha
    simp [newQueue] at ha ⊢
    omega

theorem rawPop_empty {T : Type} (q : Queue T) (hwf : WF q []) :
    rawPop q = some (PopResult.Empty, q) := by
  obtain ⟨tn, htl, hval⟩ := hwf.tailVal
  obtain ⟨nd, hnd, hnone⟩ := hwf.chain
  rw [htl] at hnd
  cases hnd
  have hht : q.head = q.tail := hwf.headEq
  simp [rawPop, htl, hnone, hht]

theorem rawPop_cons {T : Type} (q : Queue T) (b : Nat) (v : T)
    (rest : List (Nat × T)) (hwf : WF q ((b, v) :: rest)) :
    ∃ nb, hlookup q.heap b = some nb ∧ nb.value = some v ∧
      rawPop q = some (PopResult.Data v,
        { q with heap := hremove (hinsert q.heap b ⟨nb.next, none⟩) q.tail
                 tail := b }) ∧
      WF { q with heap := hremove (hinsert q.heap b ⟨nb.next, none⟩) q.tail
                  tail := b } rest := by
  obtain ⟨tn, htl, hval⟩ := hwf.tailVal
  obtain ⟨nd, nb, hnd, hnx, hb, hv, hrest⟩ := hwf.chain
  rw [htl] at hnd
  cases hnd
  have hnodup := hwf.nodup
  simp only [List.map_cons, List.nodup_cons, List.mem_cons] at hnodup
  push_neg at hnodup
  obtain ⟨⟨htb, htrest⟩, hbrest, hrestnd⟩ := hnodup
  have htb2 : b ≠ q.tail := fun hh => htb hh.symm
  refine ⟨nb, hb, hv, ?_, ?_⟩
  · simp [rawPop, htl, hnx, hb, hval, hv]
  · refine ⟨?_, ?_, ?_, ?_, ?_, ?_⟩
    · refine ⟨⟨nb.next, none⟩, ?_, rfl⟩
      rw [hlookup_hremove_ne _ _ _ htb2, hlookup_hinsert_self]
    · refine chainFrom_congr _ _ _ _ hrest ?_ ?_
      · intro c hc
        have hcb : c ≠ b := fun hh => hbrest (hh ▸ hc)
        have hct : c ≠ q.tail := fun hh => htrest (hh ▸ hc)
        rw [hlookup_hremove_ne _ _ _ hct, hlookup_hinsert_ne _ _ _ _ hcb]
      · refine ⟨nb, ⟨nb.next, none⟩, hb, ?_, rfl⟩
        rw [hlookup_hremove_ne _ _ _ htb2, hlookup_hinsert_self]
    · exact hwf.headEq
    · intro a
      have hdom := hwf.dom a
      by_cases hat : a = q.tail
      · subst hat
        simp only [hlookup_hremove_self, List.map_cons, List.mem_cons]
        simp only [Option.isSome_none, Bool.false_eq_true, false_iff]
        push_neg
        exact ⟨htb, fun hh => htrest hh⟩
      · by_cases hab : a = b
        · subst hab
          rw [hlookup_hremove_ne _ _ _ hat, hlookup_hinsert_self]
          simp
        · rw [hlookup_hremove_ne _ _ _ hat, hlookup_hinsert_ne _ _ _ _ hab]
          rw [hdom]
          simp only [List.map_cons, List.mem_cons]
          constructor
          · rintro (h1 | h2 | h3)
            · exact absurd h1 hat
            · exact absurd h2 hab
            · exact Or.inr h3
          · rintro (h1 | h2)
            · exact absurd h1 hab
            · exact Or.inr (Or.inr h2)
    · exact List.Nodup.of_cons hwf.nodup
    · intro a ha
      exact hwf.bound a (List.mem_cons_of_mem _ ha)

theorem push_chain {T : Type} (h : Heap T) (c : Nat) (v : T) :
    ∀ (items : List (Nat × T)) (a : Nat) (ln : Node T),
      chainFrom h a items →
      hlookup h (lastAddr a items) = some ln →
      (a :: items.map Prod.fst).Nodup →
      c ∉ a :: items.map Prod.fst →
      chainFrom
        (hinsert (hinsert h c ⟨none, some v⟩) (lastAddr a items)
          ⟨some c, ln.value⟩) a (items ++ [(c, v)]) := by
  intro items
  induction items with
  | nil =>
    intro a ln _ _ _ hcm
    have hac : a ≠ c := by simp at hcm; tauto
    have hca : c ≠ a := fun hh => hac hh.symm
    refine ⟨⟨some c, ln.value⟩, ⟨none, some v⟩, ?_, rfl, ?_, rfl, ?_⟩
    · simp [lastAddr, hlookup_hinsert_self]
    · simp only [lastAddr]
      rw [hlookup_hinsert_ne _ _ _ _ hca, hlookup_hinsert_self]
    · refine ⟨⟨none, some v⟩, ?_, rfl⟩
      simp only [lastAddr]
      rw [hlookup_hinsert_ne _ _ _ _ hca, hlookup_hinsert_self]
  | cons p rest ih =>
    obtain ⟨b, vb⟩ := p
    intro a ln hc hln hnd hcm
    obtain ⟨nd, nb0, hnd2, hnx, hb, hvb, hrest⟩ := hc
    simp only [List.map_cons, List.nodup_cons, List.mem_cons] at hnd hcm
    push_neg at hcm hnd
    obtain ⟨⟨hab, harest⟩, hndb⟩ := hnd
    obtain ⟨hca, hcb, hcrest⟩ := hcm
    have hlast := lastAddr_mem b rest (T := T)
    have halast : a ≠ lastAddr b rest := by
      intro hh
      rcases List.mem_cons.mp hlast with h1 | h2
      · exact hab (hh.trans h1)
      · exact harest (hh ▸ h2)
    have hclast : c ≠ lastAddr b rest := by
      intro hh
      rcases List.mem_cons.mp hlast with h1 | h2
      · exact hcb (hh.trans h1)
      · exact hcrest (hh ▸ h2)
    simp only [lastAddr] at hln ⊢
    refine ⟨nd, ?_⟩
    have hha : hlookup (hinsert (hinsert h c ⟨none, some v⟩) (lastAddr b rest)
        ⟨some c, ln.value⟩) a = some nd := by
      rw [hlookup_hinsert_ne _ _ _ _ halast, hlookup_hinsert_ne _ _ _ _
        (fun hh => hca hh.symm), hnd2]
    by_cases hbl : b = lastAddr b rest
    · have hlnb : ln = nb0 := by
        rw [← hbl] at hln
        rw [hln] at hb
        exact Option.some_injective _ hb
      refine ⟨⟨some c, ln.value⟩, hha, hnx, ?_, by rw [hlnb, hvb], ?_⟩
      · rw [← hbl, hlookup_hinsert_self]
      · exact ih b ln hrest hln (List.nodup_cons.mpr ⟨hndb.1, hndb.2⟩)
          (by simp only [List.mem_cons]; push_neg; exact ⟨hcb, hcrest⟩)
    · refine ⟨nb0, hha, hnx, ?_, hvb, ?_⟩
      · rw [hlookup_hinsert_ne _ _ _ _ hbl,
          hlookup_hinsert_ne _ _ _ _ (fun hh => hcb hh.symm), hb]
      · exact ih b ln hrest hln (List.nodup_cons.mpr ⟨hndb.1, hndb.2⟩)
          (by simp only [List.mem_cons]; push_neg; exact ⟨hcb, hcrest⟩)

theorem push_wf {T : Type} (q : Queue T) (t : T) (items : List (Nat × T))
    (hwf : WF q items) :
    WF (push q t) (items ++ [(q.nextAlloc, t)]) := by
  have hhead_mem : q.head ∈ q.tail :: items.map Prod.fst :=
    hwf.headEq ▸ lastAddr_mem q.tail items
  have hhead_lt : q.head < q.nextAlloc := hwf.bound _ hhead_mem
  have hne : q.head ≠ q.nextAlloc := Nat.ne_of_lt hhead_lt
  have hnotc : ∀ a ∈ q.tail :: items.map Prod.fst, a ≠ q.nextAlloc := by
    intro a ha hh
    exact absurd (hwf.bound a ha) (by rw [hh]; exact lt_irrefl _)
  have hcnot : q.nextAlloc ∉ q.tail :: items.map Prod.fst := by
    intro hmem
    exact hnotc _ hmem rfl
  obtain ⟨ln, hln, hlnone⟩ := chain_last q.heap items q.tail hwf.chain
  have hlnhead : hlookup q.heap q.head = some ln := by
    rw [hwf.headEq]; exact hln
  have hpush : push q t = Queue.mk
      (hinsert (hinsert q.heap q.nextAlloc ⟨none, some t⟩) q.head
        ⟨some q.nextAlloc, ln.value⟩) q.nextAlloc q.tail (q.nextAlloc + 1) := by
    simp only [push, pushSwap, storeNext]
    rw [hlookup_hinsert_ne _ _ _ _ hne, hlnhead]
  rw [hpush]
  have htail_ne_c : q.tail ≠ q.nextAlloc := hnotc q.tail (by simp)
  refine ⟨?_, ?_, ?_, ?_, ?_, ?_⟩
  · obtain ⟨tn, htl, htval⟩ := hwf.tailVal
    by_cases hth : q.tail = q.head
    · have hlt : ln = tn := by
        rw [hth] at htl
        rw [htl] at hlnhead
        exact (Option.some_injective _ hlnhead).symm
      refine ⟨⟨some q.nextAlloc, ln.value⟩, ?_, by rw [hlt, htval]⟩
      simp only [hth]
      exact hlookup_hinsert_self _ _ _
    · refine ⟨tn, ?_, htval⟩
      simp only
      rw [hlookup_hinsert_ne _ _ _ _ hth, hlookup_hinsert_ne _ _ _ _ htail_ne_c,
        htl]
  · simp only
    have := push_chain q.heap q.nextAlloc t items q.tail ln hwf.chain hln
      hwf.nodup hcnot
    rw [hwf.headEq]
    exact this
  · simp only
    exact (lastAddr_append_single q.tail q.nextAlloc t items).symm
  · intro a
    simp only [List.map_append, List.map_cons, List.map_nil]
    by_cases hah : a = q.head
    · subst hah
      rw [hlookup_hinsert_self]
      simp only [Option.isSome_some, true_iff]
      rcases List.mem_cons.mp hhead_mem with h1 | h2
      · simp [h1]
      · simp [h2]
    · by_cases hac : a = q.nextAlloc
      · subst hac
        rw [hlookup_hinsert_ne _ _ _ _ (fun hh => hne hh.symm),
          hlookup_hinsert_self]
        simp
      · rw [hlookup_hinsert_ne _ _ _ _ hah, hlookup_hinsert_ne _ _ _ _ hac]
        rw [hwf.dom a]
        simp only [List.mem_cons, List.mem_append, List.mem_singleton]
        tauto
  · have hnd : ((q.tail :: List.map Prod.fst items) ++ [q.nextAlloc]).Nodup := by
      rw [List.nodup_append]
      refine ⟨hwf.nodup, List.nodup_singleton _, ?_⟩
      intro a ha hb
      rw [List.mem_singleton] at hb
      exact hnotc a ha hb
    simpa using hnd
  · intro a ha
    simp at ha
    simp only
    rcases ha with h1 | h2 | h3
    · have := hwf.bound a (by simp [h1])
      omega
    · have := hwf.bound a (by simp [h2])
      omega
    · omega

theorem pop_empty {T : Type} (q : Queue T) (hwf : WF q []) :
    pop q = PopOutcome.ret none q := by
  simp [pop, popC, rawPop_empty q hwf]

theorem pop_cons {T : Type} (q : Queue T) (b : Nat) (v : T)
    (rest : List (Nat × T)) (hwf : WF q ((b, v) :: rest)) :
    ∃ q2, pop q = PopOutcome.ret (some v) q2 ∧ WF q2 rest ∧ q2.tail = b ∧
      q2.head = q.head ∧ hlookup q2.heap q.tail = none := by
  obtain ⟨nb, hb, hv, hraw, hwf2⟩ := rawPop_cons q b v rest hwf
  refine ⟨_, by simp [pop, popC, hraw], hwf2, rfl, rfl, ?_⟩
  exact hlookup_hremove_self _ _

theorem pushAll_wf {T : Type} (xs : List T) :
    ∀ (q : Queue T) (items : List (Nat × T)), WF q items →
      ∃ items2, WF (pushAll q xs) (items ++ items2) ∧
        items2.map Prod.snd = xs := by
  induction xs with
  | nil =>
    intro q items h
    exact ⟨[], by simpa [pushAll] using h, rfl⟩
  | cons x xs ih =>
    intro q items h
    obtain ⟨items2, hwf2, hmap⟩ := ih (push q x)
      (items ++ [(q.nextAlloc, x)]) (push_wf q x items h)
    refine ⟨(q.nextAlloc, x) :: items2, ?_, by simp [hmap]⟩
    have hfold : pushAll q (x :: xs) = pushAll (push q x) xs := rfl
    rw [hfold]
    simpa [List.append_assoc] using hwf2

theorem popList_wf {T : Type} (items : List (Nat × T)) :
    ∀ q : Queue T, WF q items →
      ∃ qf, popList items.length q = some (items.map Prod.snd, qf) ∧
        WF qf [] := by
  induction items with
  | nil =>
    intro q h
    exact ⟨q, by simp [popList], h⟩
  | cons p rest ih =>
    obtain ⟨b, v⟩ := p
    intro q h
    obtain ⟨q2, hpop, hwf2, _, _, _⟩ := pop_cons q b v rest h
    obtain ⟨qf, hrec, hwff⟩ := ih q2 hwf2
    exact ⟨qf, by simp [popList, hpop, hrec], hwff⟩

theorem drain_wf {T : Type} (items : List (Nat × T)) :
    ∀ q : Queue T, WF q items →
      ∃ qf, dropDrain (items.length + 1) q = some qf ∧ WF qf [] := by
  induction items with
  | nil =>
    intro q h
    exact ⟨q, by simp [dropDrain, pop_empty q h], h⟩
  | cons p rest ih =>
    obtain ⟨b, v⟩ := p
    intro q h
    obtain ⟨q2, hpop, hwf2, _, _, _⟩ := pop_cons q b v rest h
    obtain ⟨qf, hrec, hwff⟩ := ih q2 hwf2
    exact ⟨qf, by simp [dropDrain, hpop]; exact hrec, hwff⟩

/-- The state of the queue after the first `n` environment actions of a
schedule have run, i.e. the state the consumer observes at its `n`-th
retry attempt. -/
def applyEnv {T : Type} (q : Queue T) (fs : List (Queue T → Queue T)) :
    Queue T :=
  fs.foldl (fun s f => f s) q

theorem applyEnv_nil {T : Type} (q : Queue T) : applyEnv q [] = q := rfl

theorem applyEnv_cons {T : Type} (f : Queue T → Queue T)
    (l : List (Queue T → Queue T)) (q : Queue T) :
    applyEnv q (f :: l) = applyEnv (f q) l := rfl

theorem rawPop_cases {T : Type} (q : Queue T) :
    rawPop q = none ∨
    (∃ v q2, rawPop q = some (PopResult.Data v, q2)) ∨
    rawPop q = some (PopResult.Empty, q) ∨
    rawPop q = some (PopResult.Inconsistent, q) := by
  unfold rawPop
  split
  · exact Or.inl rfl
  · split
    · split
      · exact Or.inl rfl
      · split
        · split
          · exact Or.inr (Or.inl ⟨_, _, rfl⟩)
          · exact Or.inl rfl
        · exact Or.inl rfl
    · split
      · exact Or.inr (Or.inr (Or.inl rfl))
      · exact Or.inr (Or.inr (Or.inr rfl))

theorem rawPop_inconsistent_eq {T : Type} (q q2 : Queue T)
    (h : rawPop q = some (PopResult.Inconsistent, q2)) : q2 = q := by
  rcases rawPop_cases q with h1 | ⟨v, q3, h2⟩ | h3 | h4
  · rw [h1] at h; cases h
  · rw [h2] at h; simp at h
  · rw [h3] at h; simp at h
  · rw [h4] at h
    simp at h
    exact h.symm

theorem popLoop_no_ret_none {T : Type} :
    ∀ (env : List (Queue T → Queue T)) (q qr : Queue T),
      popLoop env q ≠ PopOutcome.ret none qr := by
  intro env
  induction env with
  | nil =>
    intro q qr h
    simp [popLoop] at h
  | cons f env ih =>
    intro q qr h
    simp only [popLoop] at h
    rcases rawPop_cases (f q) with h1 | ⟨v, q2, h2⟩ | h3 | h4
    · rw [h1] at h; simp at h
    · rw [h2] at h; simp at h
    · rw [h3] at h; simp at h
    · rw [h4] at h
      exact ih (f q) qr h

theorem popLoop_ret_some {T : Type} :
    ∀ (env : List (Queue T → Queue T)) (q : Queue T) (v : Option T)
      (qr : Queue T), popLoop env q = PopOutcome.ret v qr → ∃ x, v = some x := by
  intro env
  induction env with
  | nil =>
    intro q v qr h
    simp [popLoop] at h
  | cons f env ih =>
    intro q v qr h
    simp only [popLoop] at h
    rcases rawPop_cases (f q) with h1 | ⟨w, q2, h2⟩ | h3 | h4
    · rw [h1] at h; simp at h
    · rw [h2] at h
      simp at h
      exact ⟨w, h.1.symm⟩
    · rw [h3] at h; simp at h
    · rw [h4] at h
      exact ih (f q) v qr h

theorem popLoop_empty_panic {T : Type} :
    ∀ (env : List (Queue T → Queue T)) (q : Queue T) (i : Nat),
      i < env.length →
      (∀ j, j < i → ∃ qj, rawPop (applyEnv q (env.take (j + 1))) =
        some (PopResult.Inconsistent, qj)) →
      (∃ qe, rawPop (applyEnv q (env.take (i + 1))) =
        some (PopResult.Empty, qe)) →
      popLoop env q = PopOutcome.panicEmpty := by
  intro env
  induction env with
  | nil =>
    intro q i hi
    simp at hi
  | cons f env ih =>
    intro q i hi hInc hEmp
    cases i with
    | zero =>
      obtain ⟨qe, he⟩ := hEmp
      rw [List.take_succ_cons, List.take_zero, applyEnv_cons, applyEnv_nil] at he
      simp [popLoop, he]
    | succ i2 =>
      obtain ⟨q0, h0⟩ := hInc 0 (by omega)
      rw [List.take_succ_cons, List.take_zero, applyEnv_cons, applyEnv_nil] at h0
      have hq0 : q0 = f q := rawPop_inconsistent_eq _ _ h0
      subst hq0
      simp only [popLoop, h0]
      refine ih (f q) i2 (by simpa using hi) ?_ ?_
      · intro j hj
        obtain ⟨qj, hqj⟩ := hInc (j + 1) (by omega)
        rw [List.take_succ_cons, applyEnv_cons] at hqj
        exact ⟨qj, hqj⟩
      · obtain ⟨qe, he⟩ := hEmp
        rw [List.take_succ_cons, applyEnv_cons] at he
        exact ⟨qe, he⟩

theorem popLoop_id_spin {T : Type} (k : Nat)
    (rest : List (Queue T → Queue T)) (q : Queue T)
    (hq : rawPop q = some (PopResult.Inconsistent, q)) :
    popLoop (List.replicate k id ++ rest) q = popLoop rest q := by
  induction k with
  | zero => simp
  | succ k ih =>
    rw [List.replicate_succ, List.cons_append]
    simp only [popLoop, id_eq, hq]
    exact ih

/-- C1: for every sequence of values pushed sequentially by a single
producer onto an empty queue, successive pops return exactly those values
in push order, each wrapped in `some`, followed by a normal empty result. -/
theorem claim1_fifo_single_producer {T : Type} (q : Queue T) (xs : List T)
    (hwf : WF q []) :
    ∃ qf, popList xs.length (pushAll q xs) = some (xs, qf) ∧
      pop qf = PopOutcome.ret none qf := by
  obtain ⟨items2, hwf2, hmap⟩ := pushAll_wf xs q [] hwf
  rw [List.nil_append] at hwf2
  have hlen : items2.length = xs.length := by
    rw [← hmap, List.length_map]
  obtain ⟨qf, hpl, hwff⟩ := popList_wf items2 _ hwf2
  rw [hlen, hmap] at hpl
  exact ⟨qf, hpl, pop_empty qf hwff⟩

theorem claim1_fifo_single_producer_witness :
    ∃ qf, popList ([1, 2, 3] : List Nat).length
        (pushAll (newQueue Nat) [1, 2, 3]) = some ([1, 2, 3], qf) ∧
      pop qf = PopOutcome.ret none qf :=
  claim1_fifo_single_producer (newQueue Nat) [1, 2, 3] (wf_new Nat)

/-- C2: a single `raw_pop` attempt classifies the state three ways: a
non-null forward link after the tail yields `Data` (tail advanced,
payload taken, old tail freed); a null link with `head = tail` yields
`Empty`; a null link with `head ≠ tail` yields `Inconsistent`. -/
theorem claim2_rawPop_classification {T : Type} (q : Queue T) (tn : Node T)
    (htl : hlookup q.heap q.tail = some tn) :
    (∀ nxt nn v, tn.next = some nxt → hlookup q.heap nxt = some nn →
      tn.value = none → nn.value = some v →
      rawPop q = some (PopResult.Data v,
        { q with heap := hremove (hinsert q.heap nxt ⟨nn.next, none⟩) q.tail
                 tail := nxt })) ∧
    (tn.next = none → q.head = q.tail →
      rawPop q = some (PopResult.Empty, q)) ∧
    (tn.next = none → q.head ≠ q.tail →
      rawPop q = some (PopResult.Inconsistent, q)) := by
  refine ⟨?_, ?_, ?_⟩
  · intro nxt nn v hnx hn hv1 hv2
    simp [rawPop, htl, hnx, hn, hv1, hv2]
  · intro hnx hht
    simp [rawPop, htl, hnx, hht]
  · intro hnx hht
    simp [rawPop, htl, hnx, hht]

theorem claim2_rawPop_classification_witness :
    rawPop (push (newQueue Nat) 5) = some (PopResult.Data 5,
      { push (newQueue Nat) 5 with
          heap := hremove (hinsert (push (newQueue Nat) 5).heap 1
            ⟨none, none⟩) (push (newQueue Nat) 5).tail
          tail := 1 }) :=
  (claim2_rawPop_classification (push (newQueue Nat) 5) ⟨some 1, none⟩
    rfl).1 1 ⟨none, some 5⟩ 5 rfl rfl rfl rfl

/-- C3: once a `pop` call has observed an `Inconsistent` attempt, it
never returns a normal empty result; and if a later attempt in the same
call yields `Empty` with only `Inconsistent` attempts in between, the
call terminates abnormally with the source's `panic`. -/
theorem claim3_inconsistent_then_empty_panics {T : Type}
    (env : List (Queue T → Queue T)) (q q0 : Queue T)
    (hfirst : rawPop q = some (PopResult.Inconsistent, q0)) :
    (∀ qr, popC env q ≠ PopOutcome.ret none qr) ∧
    (∀ i, i < env.length →
      (∀ j, j < i → ∃ qj, rawPop (applyEnv q (env.take (j + 1))) =
        some (PopResult.Inconsistent, qj)) →
      (∃ qe, rawPop (applyEnv q (env.take (i + 1))) =
        some (PopResult.Empty, qe)) →
      popC env q = PopOutcome.panicEmpty) := by
  have hq0 : q0 = q := rawPop_inconsistent_eq _ _ hfirst
  rw [hq0] at hfirst
  have hpc : popC env q = popLoop env q := by
    simp [popC, hfirst]
  constructor
  · intro qr h
    rw [hpc] at h
    exact popLoop_no_ret_none env q qr h
  · intro i hi hInc hEmp
    rw [hpc]
    exact popLoop_empty_panic env q i hi hInc hEmp

theorem claim3_inconsistent_then_empty_panics_witness :
    (∀ qr, popC [id] (pushSwap (newQueue Nat) 7).1 ≠
      PopOutcome.ret none qr) ∧
    (∀ i, i < ([id] : List (Queue Nat → Queue Nat)).length →
      (∀ j, j < i → ∃ qj, rawPop (applyEnv (pushSwap (newQueue Nat) 7).1
        (([id] : List (Queue Nat → Queue Nat)).take (j + 1))) =
        some (PopResult.Inconsistent, qj)) →
      (∃ qe, rawPop (applyEnv (pushSwap (newQueue Nat) 7).1
        (([id] : List (Queue Nat → Queue Nat)).take (i + 1))) =
        some (PopResult.Empty, qe)) →
      popC [id] (pushSwap (newQueue Nat) 7).1 = PopOutcome.panicEmpty) :=
  claim3_inconsistent_then_empty_panics [id] (pushSwap (newQueue Nat) 7).1
    (pushSwap (newQueue Nat) 7).1 rfl

/-- C4: on an empty queue, `push x` followed by `pop` returns `some x`,
and afterwards the queue is empty again: `head` equals `tail` and a
further `pop` returns the normal empty result. -/
theorem claim4_roundtrip {T : Type} (q : Queue T) (x : T) (hwf : WF q []) :
    ∃ q1, pop (push q x) = PopOutcome.ret (some x) q1 ∧
      q1.head = q1.tail ∧ pop q1 = PopOutcome.ret none q1 := by
  have h1 : WF (push q x) [(q.nextAlloc, x)] := by
    simpa using push_wf q x [] hwf
  obtain ⟨q1, hpop, hwf1, _, _, _⟩ := pop_cons (push q x) q.nextAlloc x [] h1
  have hht : q1.head = q1.tail := hwf1.headEq
  exact ⟨q1, hpop, hht, pop_empty q1 hwf1⟩

theorem claim4_roundtrip_witness :
    ∃ q1, pop (push (newQueue Nat) 9) = PopOutcome.ret (some 9) q1 ∧
      q1.head = q1.tail ∧ pop q1 = PopOutcome.ret none q1 :=
  claim4_roundtrip (newQueue Nat) 9 (wf_new Nat)

/-- C5: on a freshly constructed queue, before any push, `pop` returns
the normal empty result and `is_empty` returns true. -/
theorem claim5_fresh_queue (T : Type) :
    pop (newQueue T) = PopOutcome.ret none (newQueue T) ∧
    isEmpty (newQueue T) = true := by
  exact ⟨pop_empty _ (wf_new T), rfl⟩

/-- C6: destruction drains the queue by repeated pops until it reports
empty, freeing every payload-bearing node that was linked; the one node
left as the final tail (the sentinel, or the original stub if nothing was
ever pushed) remains allocated, not reclaimed by the draining loop. -/
theorem claim6_drop_drains {T : Type} (q : Queue T)
    (items : List (Nat × T)) (hwf : WF q items) :
    ∃ qf, dropDrain (items.length + 1) q = some qf ∧
      (∀ a, (hlookup qf.heap a).isSome ↔ a = qf.tail) ∧
      (∃ tn, hlookup qf.heap qf.tail = some tn ∧ tn.value = none ∧
        tn.next = none) ∧
      (∀ p ∈ items, p.1 ≠ qf.tail → hlookup qf.heap p.1 = none) := by
  obtain ⟨qf, hd, hwff⟩ := drain_wf items q hwf
  have hdom : ∀ a, (hlookup qf.heap a).isSome ↔ a = qf.tail := by
    intro a
    have := hwff.dom a
    simpa using this
  refine ⟨qf, hd, hdom, ?_, ?_⟩
  · obtain ⟨tn, h1, h2⟩ := hwff.tailVal
    obtain ⟨nd, h3, h4⟩ := hwff.chain
    rw [h1] at h3
    cases h3
    exact ⟨tn, h1, h2, h4⟩
  · intro p _ hne
    cases hl : hlookup qf.heap p.1 with
    | none => rfl
    | some nd =>
      exfalso
      exact hne ((hdom p.1).mp (by rw [hl]; rfl))

theorem claim6_drop_drains_witness :
    ∃ qf, dropDrain (([((1 : Nat), (5 : Nat))]).length + 1)
        (push (newQueue Nat) 5) = some qf ∧
      (∀ a, (hlookup qf.heap a).isSome ↔ a = qf.tail) ∧
      (∃ tn, hlookup qf.heap qf.tail = some tn ∧ tn.value = none ∧
        tn.next = none) ∧
      (∀ p ∈ [((1 : Nat), (5 : Nat))], p.1 ≠ qf.tail →
        hlookup qf.heap p.1 = none) :=
  claim6_drop_drains (push (newQueue Nat) 5) [(1, 5)]
    (push_wf (newQueue Nat) 5 [] (wf_new Nat))

/-- C7: `is_empty` returns true exactly when `head` equals the consumer's
`tail`; and in a sequential state with no push in flight this coincides
with logical emptiness: no unconsumed item remains. -/
theorem claim7_is_empty {T : Type} (q : Queue T) :
    (isEmpty q = true ↔ q.head = q.tail) ∧
    (∀ items, WF q items → (isEmpty q = true ↔ items = [])) := by
  have hbe : isEmpty q = true ↔ q.head = q.tail := by
    simp [isEmpty]
  refine ⟨hbe, ?_⟩
  intro items hwf
  rw [hbe]
  constructor
  · intro hht
    cases items with
    | nil => rfl
    | cons p rest =>
      obtain ⟨b, v⟩ := p
      exfalso
      have hmem := lastAddr_mem b rest
      have hhd := hwf.headEq
      simp only [lastAddr] at hhd
      have hnodup := hwf.nodup
      simp only [List.map_cons, List.nodup_cons, List.mem_cons] at hnodup
      push_neg at hnodup
      obtain ⟨⟨htb, htrest⟩, _⟩ := hnodup
      rcases List.mem_cons.mp hmem with h1 | h2
      · exact htb (by rw [← hht, hhd, h1])
      · exact htrest (by rw [← hht, hhd]; exact h2)
  · intro hit
    subst hit
    have hhd := hwf.headEq
    simpa [lastAddr] using hhd

theorem claim7_is_empty_witness :
    isEmpty (newQueue Nat) = true ↔ ([] : List (Nat × Nat)) = [] :=
  (claim7_is_empty (newQueue Nat)).2 [] (wf_new Nat)

/-- C8: in every reachable sequential state the tail node holds no
payload, every linked unconsumed node holds a payload, a single pop
attempt never ends in an assertion failure, and a `Data` pop frees the
old tail and leaves the consumed node as the new payload-free tail (so
its payload can never be taken a second time). -/
theorem claim8_invariants {T : Type} (q : Queue T) (items : List (Nat × T))
    (hwf : WF q items) :
    (∃ tn, hlookup q.heap q.tail = some tn ∧ tn.value = none) ∧
    (∀ p ∈ items, ∃ nd, hlookup q.heap p.1 = some nd ∧
      nd.value = some p.2) ∧
    rawPop q ≠ none ∧
    (∀ v q2, rawPop q = some (PopResult.Data v, q2) →
      hlookup q2.heap q.tail = none ∧
      ∃ tn2, hlookup q2.heap q2.tail = some tn2 ∧ tn2.value = none) := by
  refine ⟨hwf.tailVal, chain_values _ _ _ hwf.chain, ?_, ?_⟩
  · cases items with
    | nil =>
      rw [rawPop_empty q hwf]
      simp
    | cons p rest =>
      obtain ⟨b, v⟩ := p
      obtain ⟨nb, _, _, hraw, _⟩ := rawPop_cons q b v rest hwf
      rw [hraw]
      simp
  · intro v q2 hdata
    cases items with
    | nil =>
      rw [rawPop_empty q hwf] at hdata
      simp at hdata
    | cons p rest =>
      obtain ⟨b, w⟩ := p
      obtain ⟨nb, hb, hv, hraw, hwf2⟩ := rawPop_cons q b w rest hwf
      rw [hraw] at hdata
      simp only [Option.some_inj, Prod.mk.injEq] at hdata
      obtain ⟨_, hq2⟩ := hdata
      rw [← hq2]
      refine ⟨hlookup_hremove_self _ _, ?_⟩
      exact hwf2.tailVal

theorem claim8_invariants_witness :
    rawPop (push (newQueue Nat) 5) ≠ none :=
  (claim8_invariants (push (newQueue Nat) 5) [(1, 5)]
    (push_wf (newQueue Nat) 5 [] (wf_new Nat))).2.2.1

/-- C9: a pop that observes the transient inconsistent mid-push state
keeps retrying through any finite number of yields, and once the racing
push completes its forward-link store the pop returns the pushed value;
moreover the retry loop can only return normally with a value obtained
from a `Data` attempt, never a normal empty result. -/
theorem claim9_inconsistent_liveness {T : Type} (q q1 : Queue T) (t : T)
    (prev node : Nat) (k : Nat) (rest : List (Queue T → Queue T))
    (hwf : WF q []) (hsw : pushSwap q t = (q1, prev, node)) :
    (∃ qf, popC (List.replicate k id ++
        (fun s => { s with heap := storeNext s.heap prev node }) :: rest)
        q1 = PopOutcome.ret (some t) qf) ∧
    (∀ (env : List (Queue T → Queue T)) (qq : Queue T) (v : Option T)
      (qr : Queue T), popLoop env qq = PopOutcome.ret v qr →
      ∃ x, v = some x) := by
  simp only [pushSwap, Prod.mk.injEq] at hsw
  obtain ⟨hq1, hprev, hnode⟩ := hsw
  obtain ⟨tn, htl, htval⟩ := hwf.tailVal
  obtain ⟨nd, hnd, hnone⟩ := hwf.chain
  rw [htl] at hnd
  cases hnd
  have hht : q.head = q.tail := hwf.headEq
  have htlt : q.tail < q.nextAlloc := hwf.bound q.tail (by simp)
  have htne : q.tail ≠ q.nextAlloc := Nat.ne_of_lt htlt
  have hraw1 : rawPop q1 = some (PopResult.Inconsistent, q1) := by
    rw [← hq1]
    simp only [rawPop]
    rw [hlookup_hinsert_ne _ _ _ _ htne, htl]
    simp [hnone]
    omega
  have hcomplete :
      (fun s => { s with heap := storeNext s.heap prev node }) q1 =
        push q t := by
    rw [← hq1, ← hprev, ← hnode]
    rfl
  have hwfp : WF (push q t) [(q.nextAlloc, t)] := by
    simpa using push_wf q t [] hwf
  obtain ⟨nb, hb, hv, hrawp, _⟩ :=
    rawPop_cons (push q t) q.nextAlloc t [] hwfp
  constructor
  · have h1 : popC (List.replicate k id ++
        (fun s => { s with heap := storeNext s.heap prev node }) :: rest)
        q1 = popLoop ((fun s =>
          { s with heap := storeNext s.heap prev node }) :: rest) q1 := by
      simp only [popC, hraw1]
      exact popLoop_id_spin k _ q1 hraw1
    have h2 : popC (List.replicate k id ++
        (fun s => { s with heap := storeNext s.heap prev node }) :: rest)
        q1 = PopOutcome.ret (some t)
          { push q t with
              heap := hremove (hinsert (push q t).heap q.nextAlloc
                ⟨nb.next, none⟩) (push q t).tail
              tail := q.nextAlloc } := by
      rw [h1]
      simp only [popLoop, hcomplete, hrawp]
    exact ⟨_, h2⟩
  · exact fun env qq v qr h => popLoop_ret_some env qq v qr h

theorem claim9_inconsistent_liveness_witness :
    (∃ qf, popC (List.replicate 2 id ++
        (fun s => { s with heap := storeNext s.heap 0 1 }) :: [])
        (Queue.mk (hinsert (newQueue Nat).heap 1 ⟨none, some 3⟩) 1 0 2) =
      PopOutcome.ret (some 3) qf) ∧
    (∀ (env : List (Queue Nat → Queue Nat)) (qq : Queue Nat)
      (v : Option Nat) (qr : Queue Nat),
      popLoop env qq = PopOutcome.ret v qr → ∃ x, v = some x) :=
  claim9_inconsistent_liveness (newQueue Nat)
    (Queue.mk (hinsert (newQueue Nat).heap 1 ⟨none, some 3⟩) 1 0 2)
    3 0 1 2 [] (wf_new Nat) rfl

/-- C10: in every sequential reachable state (no push in flight), a pop
attempt never yields `Inconsistent`; hence `pop` never enters its retry
loop and returns normally after a single `raw_pop` attempt, for every
schedule of environment actions. -/
theorem claim10_sequential_no_inconsistent {T : Type} (q : Queue T)
    (items : List (Nat × T)) (hwf : WF q items) :
    (∀ q2, rawPop q ≠ some (PopResult.Inconsistent, q2)) ∧
    (∃ v qf, ∀ env, popC env q = PopOutcome.ret v qf) := by
  cases items with
  | nil =>
    have hr := rawPop_empty q hwf
    constructor
    · intro q2 h
      rw [hr] at h
      simp at h
    · exact ⟨none, q, fun env => by simp [popC, hr]⟩
  | cons p rest =>
    obtain ⟨b, v⟩ := p
    obtain ⟨nb, _, _, hraw, _⟩ := rawPop_cons q b v rest hwf
    constructor
    · intro q2 h
      rw [hraw] at h
      simp at h
    · refine ⟨some v,
        { q with heap := hremove (hinsert q.heap b ⟨nb.next, none⟩) q.tail
                 tail := b }, fun env => ?_⟩
      simp [popC, hraw]

theorem claim10_sequential_no_inconsistent_witness :
    (∀ q2, rawPop (newQueue Nat) ≠ some (PopResult.Inconsistent, q2)) ∧
    (∃ v qf, ∀ env, popC env (newQueue Nat) = PopOutcome.ret v qf) :=
  claim10_sequential_no_inconsistent (newQueue Nat) [] (wf_new Nat)

end MpscList
